import Mathlib

/-!
Verification of the MCTS / self-play core of the Hibrid-Chess-AI repository.

The Python source is shallowly embedded: pure functions become Lean
functions, the mutable search tree becomes a functional rose tree with
explicit state passing (the `parent` back-references of the source are
represented by the position of a node inside the tree: the backup pass
`update_recursive`, which walks the parent chain, becomes an update along
the selection path, and `board.copy()` is the identity because boards are
values here), Python floats become exact rationals (ℚ) except where the
code calls `exp`, which is modelled with `Real.exp`, and `math.sqrt`,
which is kept as an abstract function supplied by the environment.
Python dicts that are keyed by moves and never overwrite an existing key
are represented as association lists in insertion order.
-/

namespace HCA

/-! ### Move index mapping — `src/utils/chess_utils.py`, class `MoveMapping`

`chess.SQUARES` is `range(64)`, `chess.square_rank t = t / 8`, and the
promotion piece constants are KNIGHT = 2, BISHOP = 3, ROOK = 4, QUEEN = 5. -/

structure ChessMove where
  fromSq : Nat
  toSq : Nat
  promotion : Option Nat
deriving DecidableEq

def promotionPieces : List Nat := [2, 3, 4, 5]

/-- The moves the constructor appends for one ordered pair `(f, t)` of the
`product(chess.SQUARES, repeat=2)` loop: nothing when `f = t`, otherwise the
plain move followed, when `t` lies on rank 0 or 7, by the four promotions. -/
def movesForPair (f t : Nat) : List ChessMove :=
  if f ≠ t then
    ⟨f, t, none⟩ ::
      (if t / 8 = 0 ∨ t / 8 = 7 then promotionPieces.map (fun p => ⟨f, t, some p⟩) else [])
  else []

/-- The list `m` the constructor builds; `MOVE_MAPPING = dict(enumerate(m))`,
so index `i` stands for `MOVE_LIST[i]`. -/
def MOVE_LIST : List ChessMove :=
  (List.range 64).flatMap fun f => (List.range 64).flatMap fun t => movesForPair f t

def TOTAL_MOVES : Nat := MOVE_LIST.length

/-- `MOVE_MAPPING.get(i)`. -/
def get_move_by_index (i : Nat) : Option ChessMove := MOVE_LIST[i]?

/-- `INDEX_MAPPING = {v: k for k, v in MOVE_MAPPING.items()}` keeps, for a
key occurring twice, the later index; looking the reversed pair list up from
the left realises exactly that. -/
def get_index_by_move (mv : ChessMove) : Option Nat :=
  ((MOVE_LIST.enum.map fun p => (p.2, p.1)).reverse.lookup mv)

/-! ### Position encoder — `src/utils/chess_utils.py`, `convert_single_board`

The board is embedded as exactly the data the function reads: the piece map,
the side to move, the en-passant square and the four castling-rights flags.
The numpy array `x` of shape (64, 18) becomes a function of the square and
the plane; each cell is written at most once, so the function below gives
every cell its final value. -/

structure EncBoard where
  pieceAt : Fin 64 → Option (Nat × Bool)
  turn : Bool
  ep_square : Option (Fin 64)
  castleWK : Bool
  castleWQ : Bool
  castleBK : Bool
  castleBQ : Bool

/-- The dict `piece_map` of `convert_single_board`: plane of a
(piece type, color) pair, piece types PAWN = 1 … KING = 6. -/
def piecePlane : Nat × Bool → Option Nat
  | (1, true) => some 0
  | (2, true) => some 1
  | (3, true) => some 2
  | (4, true) => some 3
  | (5, true) => some 4
  | (6, true) => some 5
  | (1, false) => some 6
  | (2, false) => some 7
  | (3, false) => some 8
  | (4, false) => some 9
  | (5, false) => some 10
  | (6, false) => some 11
  | _ => none

def convert_single_board (b : EncBoard) (s : Fin 64) (i : Fin 18) : ℚ :=
  if i.val ≤ 11 then
    match b.pieceAt s with
    | some pc => if piecePlane pc = some i.val then 1 else 0
    | none => 0
  else if i.val = 12 then (if b.turn then 1 else 0)
  else if i.val = 13 then
    (match b.ep_square with
     | some ep => if s = ep then 1 else 0
     | none => 0)
  else if i.val = 14 then (if b.castleWK then 1 else 0)
  else if i.val = 15 then (if b.castleWQ then 1 else 0)
  else if i.val = 16 then (if b.castleBK then 1 else 0)
  else (if b.castleBQ then 1 else 0)

/-! ### Search tree — `src/training/reinforcement/mcts.py`

The MCTS code observes a board only through the operations below, and the
network only through its softmaxed policy vector and its scalar value head;
both are bundled into an environment.  `sqrtN` stands for `math.sqrt`
applied to a visit count: the proofs hold for every such function. -/

structure MCTSEnv (Board Move : Type) where
  push : Board → Move → Board
  legal_moves : Board → List Move
  is_game_over : Board → Bool
  result : Board → String
  is_checkmate : Board → Bool
  turn : Board → Bool
  policy : Board → Nat → ℚ
  policyLen : Board → Nat
  valueOut : Board → ℚ
  get_index_by_move : Move → Option Nat
  sqrtN : Nat → ℚ

/-- `TreeNode.__init__`: visit count 0 at creation, running mean `Q`,
prior `P`, the owned board, the move that produced the node (`none` for a
root) and the children keyed by move.  The transient exploration bonus `u`
is recomputed from scratch inside `select` each time it is read, so it is
not part of the state; the `parent` back-reference is represented by the
node's position inside the tree. -/
inductive TreeNode (Board Move : Type) : Type where
  | mk (n_visits : Nat) (Q : ℚ) (P : ℚ) (board : Board) (move : Option Move)
      (children : List (Move × TreeNode Board Move))

def TreeNode.n_visits {Board Move : Type} : TreeNode Board Move → Nat
  | .mk n _ _ _ _ _ => n

def TreeNode.Q {Board Move : Type} : TreeNode Board Move → ℚ
  | .mk _ q _ _ _ _ => q

def TreeNode.P {Board Move : Type} : TreeNode Board Move → ℚ
  | .mk _ _ p _ _ _ => p

def TreeNode.board {Board Move : Type} : TreeNode Board Move → Board
  | .mk _ _ _ b _ _ => b

def TreeNode.children {Board Move : Type} :
    TreeNode Board Move → List (Move × TreeNode Board Move)
  | .mk _ _ _ _ _ ch => ch

def TreeNode.setChildren {Board Move : Type} :
    TreeNode Board Move → List (Move × TreeNode Board Move) → TreeNode Board Move
  | .mk n q p b mv _, ch => .mk n q p b mv ch

variable {Board Move : Type}

/-- The float literal `1e-8` of the source. -/
def q1e8 : ℚ := 1 / 100000000

/-- The probability `MCTS._policy_value_fn` assigns one legal move before
normalisation: `max(policy[idx], 1e-8) if idx is not None and idx < len(policy)
else 1e-8`. -/
def policyProbRaw (env : MCTSEnv Board Move) (b : Board) (mv : Move) : ℚ :=
  match env.get_index_by_move mv with
  | some idx => if idx < env.policyLen b then max (env.policy b idx) q1e8 else q1e8
  | none => q1e8

/-- `MCTS._policy_value_fn`.  The dict `action_probs` is written once per
element of `legal_moves` (distinct keys in a real position), so it is the
association list in iteration order, and `total_prob` is the sum of its
values. -/
def policy_value_fn (env : MCTSEnv Board Move) (b : Board) : List (Move × ℚ) × ℚ :=
  let legal := env.legal_moves b
  if legal.isEmpty then ([], env.valueOut b)
  else
    let action_probs := legal.map fun mv => (mv, policyProbRaw env b mv)
    let total_prob := (action_probs.map Prod.snd).sum
    if 0 < total_prob then
      (action_probs.map fun p => (p.1, p.2 / total_prob), env.valueOut b)
    else
      (action_probs.map fun p => (p.1, (1 : ℚ) / legal.length), env.valueOut b)

/-- `TreeNode.expand`: one pass over `action_priors`, attaching a fresh child
(visit count 0, `Q = 0`, prior `prob`, board pushed by the move) for every
move not yet among the children whose probability is strictly positive. -/
def TreeNode.expand [DecidableEq Move] (env : MCTSEnv Board Move) :
    TreeNode Board Move → List (Move × ℚ) → TreeNode Board Move
  | .mk n q p b mv ch, action_priors =>
    .mk n q p b mv <| action_priors.foldl
      (fun acc ap =>
        if (∀ c ∈ acc, c.1 ≠ ap.1) ∧ 0 < ap.2 then
          acc ++ [(ap.1, .mk 0 0 ap.2 (env.push b ap.1) (some ap.1) [])]
        else acc) ch

/-- The score `node.Q + node.u` that `TreeNode.select` computes for a child,
with `u = c_puct * P * sqrt(parent.n_visits) / (1 + n_visits)`.  (The
source's `else value = node.Q` line is for a child without a parent, which
cannot occur: every child stores the node that expanded it as parent.) -/
def childValue (env : MCTSEnv Board Move) (c_puct : ℚ) (parentVisits : Nat)
    (nd : TreeNode Board Move) : ℚ :=
  nd.Q + c_puct * nd.P * env.sqrtN parentVisits / (1 + (nd.n_visits : ℚ))

/-- One step of `select`'s loop over the children: keep the incumbent unless
the new child's value is strictly greater (`value > best_value`). -/
def selStep (env : MCTSEnv Board Move) (c_puct : ℚ) (parentVisits : Nat)
    (st : Option (Move × TreeNode Board Move) × WithBot ℚ)
    (p : Move × TreeNode Board Move) :
    Option (Move × TreeNode Board Move) × WithBot ℚ :=
  let value := childValue env c_puct parentVisits p.2
  if st.2 < (value : WithBot ℚ) then (some p, (value : WithBot ℚ)) else st

/-- `TreeNode.select`: scan the children in iteration order starting from
`best_value = -inf` (the bottom of `WithBot ℚ`). -/
def TreeNode.select (env : MCTSEnv Board Move) (c_puct : ℚ) (t : TreeNode Board Move) :
    Option (Move × TreeNode Board Move) :=
  (t.children.foldl (selStep env c_puct t.n_visits)
    ((none : Option (Move × TreeNode Board Move)), (⊥ : WithBot ℚ))).1

/-- The node-local part of `TreeNode.update_recursive`:
`self.n_visits += 1; self.Q += (leaf_value - self.Q) / self.n_visits`. -/
def TreeNode.updateSelf : TreeNode Board Move → ℚ → TreeNode Board Move
  | .mk n q p b mv ch, leaf_value =>
    .mk (n + 1) (q + (leaf_value - q) / ((n : ℚ) + 1)) p b mv ch

/-- Replacing, among the children, the entry of the selected move by the
subtree the simulation returned (the source mutates that child in place;
a dict holds one entry per key). -/
def replaceChild [DecidableEq Move] (mv : Move) (c : TreeNode Board Move) :
    List (Move × TreeNode Board Move) → List (Move × TreeNode Board Move)
  | [] => []
  | p :: rest => if p.1 = mv then (p.1, c) :: rest else p :: replaceChild mv c rest

/-- The dict `result_map = {'1-0': 1.0, '0-1': -1.0, '1/2-1/2': 0.0}` read
with `.get(result, 0.0)`. -/
def result_map (s : String) : ℚ :=
  if s = "1-0" then 1 else if s = "0-1" then -1 else if s = "1/2-1/2" then 0 else 0

lemma selStep_fold_mem (env : MCTSEnv Board Move) (c_puct : ℚ) (pv : Nat) :
    ∀ (l : List (Move × TreeNode Board Move)) st (p : Move × TreeNode Board Move),
      (l.foldl (selStep env c_puct pv) st).1 = some p → st.1 = some p ∨ p ∈ l := by
  intro l
  induction l with
  | nil => intro st p h; exact Or.inl h
  | cons x xs ih =>
    intro st p h
    rcases ih (selStep env c_puct pv st x) p h with h1 | h1
    · by_cases hlt : st.2 < (childValue env c_puct pv x.2 : WithBot ℚ)
      · simp only [selStep, if_pos hlt] at h1
        right
        simp [Option.some.injEq] at h1
        simp [h1]
      · simp only [selStep, if_neg hlt] at h1
        exact Or.inl h1
    · exact Or.inr (List.mem_cons_of_mem _ h1)

lemma TreeNode.select_mem (env : MCTSEnv Board Move) (c_puct : ℚ)
    (t : TreeNode Board Move) (p : Move × TreeNode Board Move)
    (h : t.select env c_puct = some p) : p ∈ t.children := by
  rcases selStep_fold_mem env c_puct t.n_visits t.children (none, ⊥) p h with h1 | h1
  · cases h1
  · exact h1

lemma TreeNode.sizeOf_children_lt (t : TreeNode Board Move) :
    sizeOf t.children < sizeOf t := by
  cases t with
  | mk n q p b mv ch => simp [TreeNode.children]

/-- One simulation of `MCTS.get_move_probs`: descend with `select` while the
node has children; at the leaf call `_policy_value_fn` once, expand unless
the board is game over (where the analytic `result_map` outcome replaces the
leaf value), then back the value up the visited path with alternating sign
(`update_recursive`).  The second component is the value with which the
caller one level up updates itself; the top-level call discards it. -/
def simulate [DecidableEq Move] (env : MCTSEnv Board Move) (c_puct : ℚ) :
    TreeNode Board Move → TreeNode Board Move × ℚ
  | TreeNode.mk n q p b mv0 [] =>
    let pv := policy_value_fn env b
    if env.is_game_over b = false then
      (((TreeNode.mk n q p b mv0 []).expand env pv.1).updateSelf (-pv.2), pv.2)
    else
      let lv := result_map (env.result b)
      ((TreeNode.mk n q p b mv0 []).updateSelf (-lv), lv)
  | TreeNode.mk n q p b mv0 (c0 :: cs) =>
    match hsel : (TreeNode.mk n q p b mv0 (c0 :: cs)).select env c_puct with
    | some pc =>
      let res := simulate env c_puct pc.2
      ((TreeNode.mk n q p b mv0 (replaceChild pc.1 res.1 (c0 :: cs))).updateSelf res.2,
        -res.2)
    | none => (TreeNode.mk n q p b mv0 (c0 :: cs), 0)
termination_by t => sizeOf t
decreasing_by
  have hmem := TreeNode.select_mem env c_puct _ pc hsel
  simp only [TreeNode.children] at hmem
  have h1 : sizeOf pc < sizeOf (c0 :: cs) := List.sizeOf_lt_of_mem hmem
  have h2 : sizeOf pc.2 < sizeOf pc := by
    obtain ⟨pcm, pcc⟩ := pc
    simp
  simp only [TreeNode.mk.sizeOf_spec]
  omega

/-- `MCTS.set_root_node`: a fresh root (prior 1.0, no move) for a copy of
the board, immediately expanded with one evaluator call. -/
def set_root_node [DecidableEq Move] (env : MCTSEnv Board Move) (b : Board) : TreeNode Board Move :=
  (TreeNode.mk 0 0 1 b none []).expand env (policy_value_fn env b).1

/-- The `for _ in range(self.n_simulations)` loop of `MCTS.get_move_probs`. -/
def runSims [DecidableEq Move] (env : MCTSEnv Board Move) (c_puct : ℚ) :
    Nat → TreeNode Board Move → TreeNode Board Move
  | 0, t => t
  | Nat.succ n, t => runSims env c_puct n (simulate env c_puct t).1

/-- `np.argmax` over the visit counts: the index of the first occurrence of
the maximum. -/
def npArgmax : List Nat → Nat
  | [] => 0
  | x :: xs =>
    (xs.foldl
      (fun (st : Nat × Nat × Nat) v =>
        if st.2.1 < v then (st.2.2, v, st.2.2 + 1) else (st.1, st.2.1, st.2.2 + 1))
      (0, x, 1)).1

/-- The conversion of the root children's visit counts into the returned
distribution, from the tail of `MCTS.get_move_probs`: one-hot at the argmax
when `temperature <= 1e-3`, otherwise
`visits_exp = np.exp((visits - np.max(visits)) / temperature)` renormalised.
`np.exp` is modelled by `Real.exp`. -/
noncomputable def visitsDist (temperature : ℝ) (visits : List Nat) : List ℝ :=
  if temperature ≤ 1 / 1000 then
    (List.range visits.length).map fun i => if i = npArgmax visits then (1 : ℝ) else 0
  else
    let m := visits.foldl max 0
    let visits_exp := visits.map fun v : ℕ => Real.exp (((v : ℝ) - (m : ℝ)) / temperature)
    visits_exp.map fun e => e / visits_exp.sum

/-- `MCTS.get_move_probs`: run `n_simulations` simulations from the root,
then return the updated root together with the move distribution built from
the root children's visit counts (empty when the root has no children). -/
noncomputable def get_move_probs [DecidableEq Move] (env : MCTSEnv Board Move)
    (c_puct : ℚ) (n_simulations : Nat) (temperature : ℝ) (root : TreeNode Board Move) :
    TreeNode Board Move × List (Move × ℝ) :=
  let root1 := runSims env c_puct n_simulations root
  if root1.children.isEmpty then (root1, [])
  else
    (root1,
      (root1.children.map Prod.fst).zip
        (visitsDist temperature (root1.children.map fun p => p.2.n_visits)))

/-- Lookup of `last_move` among the root's children
(`if last_move in self.root.children`). -/
def findChild [DecidableEq Move] :
    List (Move × TreeNode Board Move) → Move → Option (TreeNode Board Move)
  | [], _ => none
  | p :: rest, mv => if p.1 = mv then some p.2 else findChild rest mv

/-- `MCTS.update_with_move`: re-root at the existing child of `last_move`
(the source then clears the child's parent pointer, which the functional
tree expresses by the child becoming the root), otherwise push the move on a
copy of the root board and call `set_root_node`. -/
def update_with_move [DecidableEq Move] (env : MCTSEnv Board Move)
    (root : TreeNode Board Move) (last_move : Move) : TreeNode Board Move :=
  match findChild root.children last_move with
  | some child => child
  | none => set_root_node env (env.push root.board last_move)

/-! ### Self-play value labels —
`src/training/reinforcement/reinforcement_training_worker.py`,
`play_and_collect_wrapper` (the outcome-assignment block after the game
loop).  `get_game_result` is imported from `src.utils.chess_utils`; its
definition in this repository is the static method of
`src/reinforcement/reinforcement_training_worker.py`: +1.0 for '1-0',
-1.0 for '0-1', else 0.0. -/

def get_game_result (env : MCTSEnv Board Move) (b : Board) : ℚ :=
  if env.result b = "1-0" then 1 else if env.result b = "0-1" then -1 else 0

/-- The block
`result = get_game_result(board); if board.is_checkmate(): last_player = not
board.turn; winners = [result if player == last_player else -result ...]`
`else: winners = [0.0 ...]`, applied to the recorded `current_players`
(the side to move at each recorded position, in game order). -/
def compute_winners (env : MCTSEnv Board Move) (b : Board)
    (current_players : List Bool) : List ℚ :=
  let result := get_game_result env b
  if env.is_checkmate b then
    let last_player := !(env.turn b)
    current_players.map fun player => if player = last_player then result else -result
  else
    current_players.map fun _ => (0 : ℚ)

/-! ### Specification-side definitions

These follow the spec's words, for comparison with the code's behaviour. -/

/-- The exact game outcome of a finished board from the perspective of the
side to move there, as the spec words it: +1 if that side wins, -1 if it
loses, 0 for a draw. -/
def specSideToMoveOutcome (env : MCTSEnv Board Move) (b : Board) : ℚ :=
  if env.result b = "1-0" then (if env.turn b then 1 else -1)
  else if env.result b = "0-1" then (if env.turn b then -1 else 1)
  else 0

/-- The value label the spec assigns a recorded position: the final result
oriented to the side `player` that was to move there (+1 when that side
delivered the checkmate, -1 when it was mated), 0 for a game that did not
end in checkmate. -/
def specValueLabel (env : MCTSEnv Board Move) (b : Board) (player : Bool) : ℚ :=
  if env.is_checkmate b then (if player = !(env.turn b) then 1 else -1) else 0

/-! ### Concrete instances used by counterexamples and witnesses -/

/-- A board with an en-passant target square (square 20 = e3, as after
1. e4): `b.ep_square` is set, every other field arbitrary. -/
def epBoard : EncBoard where
  pieceAt := fun _ => none
  turn := true
  ep_square := some ⟨20, by omega⟩
  castleWK := true
  castleWQ := true
  castleBK := true
  castleBQ := true

/-- A game-over position in which White delivered checkmate: python-chess
reports result '1-0' and it is Black's turn (the mated side is to move).
The network value head is pinned at 99 to make its non-use visible. -/
def envC1 : MCTSEnv Unit Unit where
  push := fun _ _ => ()
  legal_moves := fun _ => []
  is_game_over := fun _ => true
  result := fun _ => "1-0"
  is_checkmate := fun _ => true
  turn := fun _ => false
  policy := fun _ _ => 0
  policyLen := fun _ => 0
  valueOut := fun _ => 99
  get_index_by_move := fun _ => none
  sqrtN := fun _ => 0

/-- A finished game in which Black delivered checkmate (result '0-1',
White to move in the final position), e.g. after 1. f3 e5 2. g4 Qh4#. -/
def envC6 : MCTSEnv Unit Unit where
  push := fun _ _ => ()
  legal_moves := fun _ => []
  is_game_over := fun _ => true
  result := fun _ => "0-1"
  is_checkmate := fun _ => true
  turn := fun _ => true
  policy := fun _ _ => 0
  policyLen := fun _ => 0
  valueOut := fun _ => 0
  get_index_by_move := fun _ => none
  sqrtN := fun _ => 0

/-- An environment over a one-square board with two legal moves whose
network policy gives move 0 mass 1/2 and move 1 a degenerate score (so the
1e-8 floor fires for it). -/
def envC3w : MCTSEnv Unit Nat where
  push := fun _ _ => ()
  legal_moves := fun _ => [0, 1]
  is_game_over := fun _ => false
  result := fun _ => "*"
  is_checkmate := fun _ => false
  turn := fun _ => true
  policy := fun _ i => if i = 0 then 1 / 2 else -3
  policyLen := fun _ => 2
  valueOut := fun _ => 0
  get_index_by_move := fun m => some m
  sqrtN := fun _ => 0

/-- An environment whose abstract square root doubles its argument, used to
evaluate `select` on a small concrete tree. -/
def envC5w : MCTSEnv Unit Nat where
  push := fun _ _ => ()
  legal_moves := fun _ => [0, 1]
  is_game_over := fun _ => false
  result := fun _ => "*"
  is_checkmate := fun _ => false
  turn := fun _ => true
  policy := fun _ _ => 0
  policyLen := fun _ => 0
  valueOut := fun _ => 0
  get_index_by_move := fun m => some m
  sqrtN := fun n => 2 * n

/-- A two-child root: child of move 0 with Q = 1/2, prior 1/4, one visit;
child of move 1 with Q = 1/3, prior 1/2, no visits; the root has 5 visits. -/
def tC5w : TreeNode Unit Nat :=
  TreeNode.mk 5 0 1 () none
    [(0, TreeNode.mk 1 (1 / 2) (1 / 4) () (some 0) []),
     (1, TreeNode.mk 0 (1 / 3) (1 / 2) () (some 1) [])]

/-- An environment for exercising the returned move distribution alone
(no simulations are run over it). -/
def envC7 : MCTSEnv Unit Bool where
  push := fun _ _ => ()
  legal_moves := fun _ => []
  is_game_over := fun _ => false
  result := fun _ => "*"
  is_checkmate := fun _ => false
  turn := fun _ => true
  policy := fun _ _ => 0
  policyLen := fun _ => 0
  valueOut := fun _ => 0
  get_index_by_move := fun _ => none
  sqrtN := fun _ => 0

/-- A root whose two children carry visit counts 1 and 2. -/
def rootC7 : TreeNode Unit Bool :=
  TreeNode.mk 3 0 1 () none
    [(false, TreeNode.mk 1 0 (1 / 2) () (some false) []),
     (true, TreeNode.mk 2 0 (1 / 2) () (some true) [])]

/-! ## Theorems -/

/-! ### C9 — constant-valued metadata planes of `convert_single_board` -/

/-- Claim C9 counterexample: the claim says the en-passant plane (plane 13)
is constant-valued over all 64 squares, but for a board whose en-passant
target is square 20 the encoder writes 1 at square 20 and 0 at square 0. -/
theorem C9_ep_plane_not_constant :
    ¬ (∀ s1 s2 : Fin 64,
        convert_single_board epBoard s1 (⟨13, by omega⟩ : Fin 18) =
          convert_single_board epBoard s2 (⟨13, by omega⟩ : Fin 18)) := by
  intro h
  have h20 := h ⟨20, by omega⟩ ⟨0, by omega⟩
  simp [convert_single_board, epBoard, Fin.ext_iff] at h20
  rw [if_neg (by decide)] at h20
  exact one_ne_zero h20

/-- Claim C9 as amended: the side-to-move plane (12) and the four
castling-rights planes (14–17) are constant-valued over all 64 squares,
while the en-passant plane (13) is all-zero when the board has no
en-passant target and otherwise marks exactly the target square. -/
theorem C9_metadata_planes (b : EncBoard) :
    (∀ s1 s2 : Fin 64,
      convert_single_board b s1 (⟨12, by omega⟩ : Fin 18) = convert_single_board b s2 (⟨12, by omega⟩ : Fin 18))
  ∧ (∀ i : Fin 18, 14 ≤ i.val → ∀ s1 s2 : Fin 64,
      convert_single_board b s1 i = convert_single_board b s2 i)
  ∧ (b.ep_square = none →
      ∀ s : Fin 64, convert_single_board b s (⟨13, by omega⟩ : Fin 18) = 0)
  ∧ (∀ e : Fin 64, b.ep_square = some e →
      ∀ s : Fin 64, convert_single_board b s (⟨13, by omega⟩ : Fin 18) = if s = e then 1 else 0) := by
  refine ⟨?_, ?_, ?_, ?_⟩
  · intro s1 s2
    simp [convert_single_board]
  · intro i hi s1 s2
    have h11 : ¬ i.val ≤ 11 := by omega
    have h12 : ¬ i.val = 12 := by omega
    have h13 : ¬ i.val = 13 := by omega
    simp only [convert_single_board, if_neg h11, if_neg h12, if_neg h13]
  · intro hep s
    simp [convert_single_board, hep]
  · intro e hep s
    simp [convert_single_board, hep]

/-! ### C6 — self-play value labels -/

/-- Claim C6 evaluation at the failing input: a game Black won by checkmate
(result '0-1', White to move in the final position) with one White-to-move
and one Black-to-move recorded position.  The code labels them `[1, -1]`
while the claim's side-to-move orientation demands `[-1, 1]`: the winner's
positions receive −1 whenever Black is the winner. -/
theorem C6_label_orientation_flipped :
    compute_winners envC6 () [true, false] = [1, -1]
  ∧ [true, false].map (specValueLabel envC6 ()) = [-1, 1]
  ∧ (1 : ℚ) ≠ -1 := by
  refine ⟨?_, ?_, by norm_num⟩
  · simp [compute_winners, get_game_result, envC6]
  · simp [specValueLabel, envC6]

/-! ### C1 — terminal leaf values in the simulation loop -/

/-- Claim C1 evaluation at the failing input: a game-over leaf with result
'1-0' and Black to move (White delivered mate).  The backup uses
`result_map` = +1, the White-perspective outcome, while the claim's
side-to-move perspective gives −1 (the side to move is the mated side);
the network's value estimate (pinned at 99) is indeed not used. -/
theorem C1_terminal_value_perspective :
    (simulate envC1 (7 / 5) (TreeNode.mk 0 0 1 () none [])).2 = 1
  ∧ specSideToMoveOutcome envC1 () = -1
  ∧ envC1.valueOut () = 99 := by
  refine ⟨?_, ?_, rfl⟩
  · simp [simulate, envC1, result_map]
  · simp [specSideToMoveOutcome, envC1]

/-! ### Helper lemmas about `findChild` and `expand` -/

lemma findChild_append_of_some [DecidableEq Move]
    (l1 l2 : List (Move × TreeNode Board Move)) (mv : Move) (c : TreeNode Board Move)
    (h : findChild l1 mv = some c) : findChild (l1 ++ l2) mv = some c := by
  induction l1 with
  | nil => simp [findChild] at h
  | cons x xs ih =>
    by_cases hx : x.1 = mv
    · simp only [findChild, if_pos hx] at h ⊢
      simpa using h
    · simp only [findChild, if_neg hx] at h ⊢
      exact ih h

lemma findChild_append_of_none [DecidableEq Move]
    (l1 l2 : List (Move × TreeNode Board Move)) (mv : Move)
    (h : findChild l1 mv = none) : findChild (l1 ++ l2) mv = findChild l2 mv := by
  induction l1 with
  | nil => simp
  | cons x xs ih =>
    by_cases hx : x.1 = mv
    · simp only [findChild, if_pos hx] at h
      cases h
    · simp only [findChild, if_neg hx] at h ⊢
      exact ih h

lemma findChild_eq_none_iff [DecidableEq Move]
    (l : List (Move × TreeNode Board Move)) (mv : Move) :
    findChild l mv = none ↔ ∀ p ∈ l, p.1 ≠ mv := by
  induction l with
  | nil => simp [findChild]
  | cons x xs ih =>
    by_cases hx : x.1 = mv
    · simp only [findChild, if_pos hx]
      constructor
      · intro h; cases h
      · intro h; exact absurd hx (h x (List.mem_cons_self x xs))
    · simp only [findChild, if_neg hx, ih]
      constructor
      · intro h p hp
        rcases List.mem_cons.mp hp with rfl | hp
        · exact hx
        · exact h p hp
      · intro h p hp
        exact h p (List.mem_cons_of_mem x hp)

/-- The fold inside `TreeNode.expand`, factored out for reasoning. -/
def expandFold [DecidableEq Move] (env : MCTSEnv Board Move) (b : Board)
    (ap : List (Move × ℚ)) (acc : List (Move × TreeNode Board Move)) :
    List (Move × TreeNode Board Move) :=
  ap.foldl
    (fun acc ap =>
      if (∀ c ∈ acc, c.1 ≠ ap.1) ∧ 0 < ap.2 then
        acc ++ [(ap.1, .mk 0 0 ap.2 (env.push b ap.1) (some ap.1) [])]
      else acc) acc

lemma expand_eq_expandFold [DecidableEq Move] (env : MCTSEnv Board Move)
    (n : Nat) (q p : ℚ) (b : Board) (mv : Option Move)
    (ch : List (Move × TreeNode Board Move)) (ap : List (Move × ℚ)) :
    (TreeNode.mk n q p b mv ch).expand env ap =
      TreeNode.mk n q p b mv (expandFold env b ap ch) := rfl

lemma expandFold_findChild_some [DecidableEq Move] (env : MCTSEnv Board Move)
    (b : Board) (ap : List (Move × ℚ)) :
    ∀ (acc : List (Move × TreeNode Board Move)) (mv : Move) (c : TreeNode Board Move),
      findChild acc mv = some c → findChild (expandFold env b ap acc) mv = some c := by
  induction ap with
  | nil => intro acc mv c h; exact h
  | cons a as ih =>
    intro acc mv c h
    show findChild (expandFold env b as _) mv = some c
    by_cases hc : (∀ x ∈ acc, x.1 ≠ a.1) ∧ 0 < a.2
    · simp only [expandFold, List.foldl_cons, if_pos hc]
      exact ih _ mv c (findChild_append_of_some _ _ _ _ h)
    · simp only [expandFold, List.foldl_cons, if_neg hc]
      exact ih _ mv c h

lemma expandFold_new_child [DecidableEq Move] (env : MCTSEnv Board Move)
    (b : Board) (ap : List (Move × ℚ)) :
    ∀ (acc : List (Move × TreeNode Board Move)) (mv : Move) (c : TreeNode Board Move),
      findChild acc mv = none →
      findChild (expandFold env b ap acc) mv = some c →
      ∃ pr, (mv, pr) ∈ ap ∧ 0 < pr ∧
        c = TreeNode.mk 0 0 pr (env.push b mv) (some mv) [] := by
  induction ap with
  | nil =>
    intro acc mv c h0 h1
    rw [show expandFold env b [] acc = acc from rfl] at h1
    rw [h0] at h1
    cases h1
  | cons a as ih =>
    intro acc mv c h0 h1
    by_cases hc : (∀ x ∈ acc, x.1 ≠ a.1) ∧ 0 < a.2
    · simp only [expandFold, List.foldl_cons, if_pos hc] at h1
      by_cases hmv : a.1 = mv
      · have hnew : findChild (acc ++ [(a.1, TreeNode.mk 0 0 a.2 (env.push b a.1) (some a.1) [])]) mv
            = some (TreeNode.mk 0 0 a.2 (env.push b a.1) (some a.1) []) := by
          rw [findChild_append_of_none _ _ _ h0]
          simp [findChild, hmv]
        have hfin := expandFold_findChild_some env b as _ mv _ hnew
        have : c = TreeNode.mk 0 0 a.2 (env.push b a.1) (some a.1) [] := by
          have h2 := h1.symm.trans hfin
          exact Option.some.inj h2
        subst hmv
        exact ⟨a.2, List.mem_cons_self _ _, hc.2, by simpa using this⟩
      · have hnone : findChild (acc ++ [(a.1, TreeNode.mk 0 0 a.2 (env.push b a.1) (some a.1) [])]) mv = none := by
          rw [findChild_append_of_none _ _ _ h0]
          simp [findChild, hmv]
        rcases ih _ mv c hnone h1 with ⟨pr, hmem, hpr, hceq⟩
        exact ⟨pr, List.mem_cons_of_mem _ hmem, hpr, hceq⟩
    · simp only [expandFold, List.foldl_cons, if_neg hc] at h1
      rcases ih _ mv c h0 h1 with ⟨pr, hmem, hpr, hceq⟩
      exact ⟨pr, List.mem_cons_of_mem _ hmem, hpr, hceq⟩

/-! ### C10 — `expand` never replaces or resets an existing child -/

/-- Claim C10: after `expand`, every move already among the children still
maps to the very same child node (visit count, Q, prior and subtree
included), and a move that was absent maps to a child only if the priors
list carries it with a strictly positive probability, the child then being
freshly created with 0 visits, `Q = 0`, the given prior, the pushed board
and no children. -/
theorem C10_expand_preserves_children [DecidableEq Move] (env : MCTSEnv Board Move)
    (t : TreeNode Board Move) (ap : List (Move × ℚ)) :
    (∀ mv c, findChild t.children mv = some c →
      findChild (t.expand env ap).children mv = some c)
  ∧ (∀ mv c, findChild t.children mv = none →
      findChild (t.expand env ap).children mv = some c →
      ∃ pr, (mv, pr) ∈ ap ∧ 0 < pr ∧
        c = TreeNode.mk 0 0 pr (env.push t.board mv) (some mv) []) := by
  obtain ⟨n, q, p, b, mv0, ch⟩ := t
  rw [expand_eq_expandFold]
  constructor
  · intro mv c h
    exact expandFold_findChild_some env b ap ch mv c h
  · intro mv c h0 h1
    exact expandFold_new_child env b ap ch mv c h0 h1

/-! ### C8 — `update_with_move` re-roots or rebuilds -/

lemma set_root_node_n_visits [DecidableEq Move] (env : MCTSEnv Board Move) (b : Board) :
    (set_root_node env b).n_visits = 0 := by
  rw [set_root_node, expand_eq_expandFold]
  rfl

/-- Claim C8: when the move is an existing child of the root,
`update_with_move` re-roots at exactly that child — its visit count, Q,
prior and subtree are the re-rooted tree's own (the child, now the root,
has no parent); when the move is not a child, the tree is discarded and
`set_root_node` runs on the pushed board, producing a root with 0 visits. -/
theorem C8_update_with_move (env : MCTSEnv Board Move) [DecidableEq Move]
    (root : TreeNode Board Move) (mv : Move) :
    (∀ child, findChild root.children mv = some child →
      update_with_move env root mv = child ∧
      (update_with_move env root mv).n_visits = child.n_visits ∧
      (update_with_move env root mv).Q = child.Q ∧
      (update_with_move env root mv).P = child.P ∧
      (update_with_move env root mv).children = child.children)
  ∧ (findChild root.children mv = none →
      update_with_move env root mv = set_root_node env (env.push root.board mv) ∧
      (update_with_move env root mv).n_visits = 0) := by
  constructor
  · intro child h
    have : update_with_move env root mv = child := by
      rw [update_with_move, h]
    exact ⟨this, by rw [this], by rw [this], by rw [this], by rw [this]⟩
  · intro h
    have : update_with_move env root mv = set_root_node env (env.push root.board mv) := by
      rw [update_with_move, h]
    exact ⟨this, by rw [this, set_root_node_n_visits]⟩

/-! ### Helper lemmas about `_policy_value_fn` -/

lemma q1e8_pos : 0 < q1e8 := by norm_num [q1e8]

lemma policyProbRaw_ge (env : MCTSEnv Board Move) (b : Board) (mv : Move) :
    q1e8 ≤ policyProbRaw env b mv := by
  rw [policyProbRaw]
  cases env.get_index_by_move mv with
  | none => exact le_refl _
  | some idx =>
    by_cases hidx : idx < env.policyLen b
    · simp only [if_pos hidx]
      exact le_max_right _ _
    · simp only [if_neg hidx]
      exact le_refl _

lemma policyProbRaw_pos (env : MCTSEnv Board Move) (b : Board) (mv : Move) :
    0 < policyProbRaw env b mv :=
  lt_of_lt_of_le q1e8_pos (policyProbRaw_ge env b mv)

lemma list_sum_map_div {α : Type} [DivisionRing α] (l : List α) (t : α) :
    (l.map fun x => x / t).sum = l.sum / t := by
  induction l with
  | nil => simp
  | cons x xs ih => simp [ih, add_div]

lemma rawTotal_pos (env : MCTSEnv Board Move) (b : Board)
    (h : env.legal_moves b ≠ []) :
    0 < ((env.legal_moves b).map (policyProbRaw env b)).sum := by
  cases hl : env.legal_moves b with
  | nil => exact absurd hl h
  | cons x xs =>
    have hx : 0 < policyProbRaw env b x := policyProbRaw_pos env b x
    have hxs : 0 ≤ (xs.map (policyProbRaw env b)).sum := by
      apply List.sum_nonneg
      intro z hz
      rcases List.mem_map.mp hz with ⟨y, _, rfl⟩
      exact le_of_lt (policyProbRaw_pos env b y)
    simp only [List.map_cons, List.sum_cons]
    linarith

lemma policy_value_fn_eq (env : MCTSEnv Board Move) (b : Board)
    (h : env.legal_moves b ≠ []) :
    (policy_value_fn env b).1 =
      (env.legal_moves b).map fun mv =>
        (mv, policyProbRaw env b mv / ((env.legal_moves b).map (policyProbRaw env b)).sum) := by
  have hne : (env.legal_moves b).isEmpty = false := by
    cases hl : env.legal_moves b with
    | nil => exact absurd hl h
    | cons x xs => rfl
  have htot :
      (((env.legal_moves b).map fun mv => (mv, policyProbRaw env b mv)).map Prod.snd).sum
        = ((env.legal_moves b).map (policyProbRaw env b)).sum := by
    rw [List.map_map]
    exact rfl
  rw [policy_value_fn]
  simp only [hne, Bool.false_eq_true, if_false, htot]
  rw [if_pos (rawTotal_pos env b h)]
  show (((env.legal_moves b).map fun mv => (mv, policyProbRaw env b mv)).map fun p =>
      (p.1, p.2 / ((env.legal_moves b).map (policyProbRaw env b)).sum),
    env.valueOut b).1 = _
  rw [List.map_map]
  exact rfl

/-! ### C3 — the evaluator's policy is a strictly positive distribution
over exactly the legal moves -/

/-- Claim C3: for a board with at least one legal move, `_policy_value_fn`
returns entries keyed by exactly the legal moves in order, every probability
is strictly positive, their sum is 1 within 1e-6 (here exactly 1 in exact
arithmetic), and were the pre-normalisation mass zero the result would be
the uniform distribution (the mass is in fact provably positive, so that
case cannot fire). -/
theorem C3_policy_distribution (env : MCTSEnv Board Move) (b : Board)
    (h : env.legal_moves b ≠ []) :
    ((policy_value_fn env b).1.map Prod.fst = env.legal_moves b)
  ∧ (∀ p ∈ (policy_value_fn env b).1, 0 < p.2)
  ∧ (abs (((policy_value_fn env b).1.map Prod.snd).sum - 1) ≤ 1 / 1000000)
  ∧ ((((env.legal_moves b).map (policyProbRaw env b)).sum = 0) →
      ∀ p ∈ (policy_value_fn env b).1, p.2 = 1 / ((env.legal_moves b).length : ℚ)) := by
  have htot := rawTotal_pos env b h
  have heq := policy_value_fn_eq env b h
  refine ⟨?_, ?_, ?_, ?_⟩
  · rw [heq]
    rw [List.map_map]
    exact List.map_id _
  · intro p hp
    rw [heq] at hp
    rcases List.mem_map.mp hp with ⟨mv, _, rfl⟩
    exact div_pos (policyProbRaw_pos env b mv) htot
  · rw [heq]
    have hsnd :
        ((((env.legal_moves b).map fun mv =>
          (mv, policyProbRaw env b mv / ((env.legal_moves b).map (policyProbRaw env b)).sum)).map
            Prod.snd).sum)
        = (((env.legal_moves b).map (policyProbRaw env b)).map fun x =>
            x / ((env.legal_moves b).map (policyProbRaw env b)).sum).sum := by
      rw [List.map_map, List.map_map]
      exact rfl
    rw [hsnd, list_sum_map_div, div_self (ne_of_gt htot)]
    norm_num
  · intro h0
    exact absurd h0 (ne_of_gt htot)

/-- Claim C3 witness: the environment `envC3w` has two legal moves, one with
policy mass 1/2 and one floored at 1e-8; the theorem's hypotheses hold
there. -/
theorem C3_policy_distribution_witness :
    ((policy_value_fn envC3w ()).1.map Prod.fst = envC3w.legal_moves ())
  ∧ (∀ p ∈ (policy_value_fn envC3w ()).1, 0 < p.2)
  ∧ (abs (((policy_value_fn envC3w ()).1.map Prod.snd).sum - 1) ≤ 1 / 1000000)
  ∧ ((((envC3w.legal_moves ()).map (policyProbRaw envC3w ())).sum = 0) →
      ∀ p ∈ (policy_value_fn envC3w ()).1, p.2 = 1 / ((envC3w.legal_moves ()).length : ℚ)) :=
  C3_policy_distribution envC3w () (by simp [envC3w])

/-! ### Helper lemmas about `select` -/

lemma selStep_fold_isSome (env : MCTSEnv Board Move) (c_puct : ℚ) (pv : Nat) :
    ∀ (l : List (Move × TreeNode Board Move)) st, st.1.isSome = true →
      ((l.foldl (selStep env c_puct pv) st).1).isSome = true := by
  intro l
  induction l with
  | nil => intro st h; exact h
  | cons x xs ih =>
    intro st h
    rw [List.foldl_cons]
    apply ih
    simp only [selStep]
    split
    · rfl
    · exact h

lemma selStep_eq_new (env : MCTSEnv Board Move) (c_puct : ℚ) (pv : Nat)
    (p x : Move × TreeNode Board Move)
    (hlt : childValue env c_puct pv p.2 < childValue env c_puct pv x.2) :
    selStep env c_puct pv (some p, ((childValue env c_puct pv p.2 : ℚ) : WithBot ℚ)) x
      = (some x, ((childValue env c_puct pv x.2 : ℚ) : WithBot ℚ)) := by
  simp only [selStep]
  rw [if_pos (WithBot.coe_lt_coe.mpr hlt)]

lemma selStep_eq_old (env : MCTSEnv Board Move) (c_puct : ℚ) (pv : Nat)
    (p x : Move × TreeNode Board Move)
    (hlt : ¬ childValue env c_puct pv p.2 < childValue env c_puct pv x.2) :
    selStep env c_puct pv (some p, ((childValue env c_puct pv p.2 : ℚ) : WithBot ℚ)) x
      = (some p, ((childValue env c_puct pv p.2 : ℚ) : WithBot ℚ)) := by
  simp only [selStep]
  rw [if_neg]
  intro hcon
  exact hlt (WithBot.coe_lt_coe.mp hcon)

lemma selStep_fold_first_max (env : MCTSEnv Board Move) (c_puct : ℚ) (pv : Nat) :
    ∀ (l : List (Move × TreeNode Board Move)) (p q : Move × TreeNode Board Move),
      ((l.foldl (selStep env c_puct pv)
          (some p, ((childValue env c_puct pv p.2 : ℚ) : WithBot ℚ))).1 = some q) →
      ∃ pre post, p :: l = pre ++ q :: post
        ∧ (∀ r ∈ p :: l, childValue env c_puct pv r.2 ≤ childValue env c_puct pv q.2)
        ∧ (∀ r ∈ pre, childValue env c_puct pv r.2 < childValue env c_puct pv q.2) := by
  intro l
  induction l with
  | nil =>
    intro p q h
    simp only [List.foldl_nil] at h
    obtain rfl : p = q := Option.some.inj h
    refine ⟨[], [], rfl, ?_, by intro r hr; cases hr⟩
    intro r hr
    rcases List.mem_singleton.mp hr with rfl
    exact le_refl _
  | cons x xs ih =>
    intro p q h
    rw [List.foldl_cons] at h
    by_cases hlt : childValue env c_puct pv p.2 < childValue env c_puct pv x.2
    · rw [selStep_eq_new env c_puct pv p x hlt] at h
      rcases ih x q h with ⟨pre, post, hdec, hle, hstrict⟩
      have hxq : childValue env c_puct pv x.2 ≤ childValue env c_puct pv q.2 :=
        hle x (List.mem_cons_self x xs)
      refine ⟨p :: pre, post, by rw [List.cons_append, ← hdec], ?_, ?_⟩
      · intro r hr
        rcases List.mem_cons.mp hr with rfl | hr
        · exact le_of_lt (lt_of_lt_of_le hlt hxq)
        · exact hle r hr
      · intro r hr
        rcases List.mem_cons.mp hr with rfl | hr
        · exact lt_of_lt_of_le hlt hxq
        · exact hstrict r hr
    · rw [selStep_eq_old env c_puct pv p x hlt] at h
      rcases ih p q h with ⟨pre, post, hdec, hle, hstrict⟩
      have hxle : childValue env c_puct pv x.2 ≤ childValue env c_puct pv p.2 :=
        le_of_not_lt hlt
      cases pre with
      | nil =>
        rw [List.nil_append] at hdec
        injection hdec with h1 h2
        subst h1
        subst h2
        refine ⟨[], x :: xs, rfl, ?_, by intro r hr; cases hr⟩
        intro r hr
        rcases List.mem_cons.mp hr with rfl | hr
        · exact le_refl _
        rcases List.mem_cons.mp hr with rfl | hr
        · exact hxle
        · exact hle r (List.mem_cons_of_mem p hr)
      | cons p0 pre2 =>
        rw [List.cons_append] at hdec
        injection hdec with h1 hxs
        subst hxs
        have hmempre : p ∈ p0 :: pre2 := by
          rw [← h1]
          exact List.mem_cons_self _ _
        have hpq : childValue env c_puct pv p.2 < childValue env c_puct pv q.2 :=
          hstrict p hmempre
        refine ⟨p :: x :: pre2, post, ?_, ?_, ?_⟩
        · simp
        · intro r hr
          rcases List.mem_cons.mp hr with rfl | hr
          · exact hle _ (List.mem_cons_self _ _)
          rcases List.mem_cons.mp hr with rfl | hr
          · exact le_of_lt (lt_of_le_of_lt hxle hpq)
          · exact hle r (List.mem_cons_of_mem _ hr)
        · intro r hr
          rcases List.mem_cons.mp hr with rfl | hr
          · exact hpq
          rcases List.mem_cons.mp hr with rfl | hr
          · exact lt_of_le_of_lt hxle hpq
          · exact hstrict r (List.mem_cons_of_mem p0 hr)

lemma TreeNode.select_isSome (env : MCTSEnv Board Move) (c_puct : ℚ)
    (t : TreeNode Board Move) (h : t.children ≠ []) :
    ∃ pc, t.select env c_puct = some pc := by
  rw [TreeNode.select]
  cases hch : t.children with
  | nil => exact absurd hch h
  | cons c0 cs =>
    have hstep0 : selStep env c_puct t.n_visits (none, ⊥) c0
        = (some c0, ((childValue env c_puct t.n_visits c0.2 : ℚ) : WithBot ℚ)) := by
      simp only [selStep]
      rw [if_pos (WithBot.bot_lt_coe _)]
    have hsome := selStep_fold_isSome env c_puct t.n_visits cs
      (some c0, ((childValue env c_puct t.n_visits c0.2 : ℚ) : WithBot ℚ)) rfl
    rw [List.foldl_cons, hstep0]
    exact Option.isSome_iff_exists.mp hsome

/-! ### C5 — selection picks the first child maximising Q + U -/

/-- Claim C5: from a node with a non-empty children map, `select` returns
a child attaining the maximum of `Q + U` with
`U = c_puct * P * sqrt(parent.visits) / (1 + child.visits)` (the function
`childValue`), and it is the first such child in iteration order: every
child strictly before it scores strictly less.  This holds for every
abstract square-root function, hence for `math.sqrt`. -/
theorem C5_select_first_max (env : MCTSEnv Board Move) (c_puct : ℚ)
    (t : TreeNode Board Move) (h : t.children ≠ []) :
    ∃ pc pre post, t.select env c_puct = some pc
      ∧ t.children = pre ++ pc :: post
      ∧ (∀ r ∈ t.children,
          childValue env c_puct t.n_visits r.2 ≤ childValue env c_puct t.n_visits pc.2)
      ∧ (∀ r ∈ pre,
          childValue env c_puct t.n_visits r.2 < childValue env c_puct t.n_visits pc.2) := by
  cases hch : t.children with
  | nil => exact absurd hch h
  | cons c0 cs =>
    obtain ⟨pc, hpc⟩ := TreeNode.select_isSome env c_puct t h
    have hfold : ((cs.foldl (selStep env c_puct t.n_visits)
        (some c0, ((childValue env c_puct t.n_visits c0.2 : ℚ) : WithBot ℚ))).1 = some pc) := by
      have hstep0 : selStep env c_puct t.n_visits (none, ⊥) c0
          = (some c0, ((childValue env c_puct t.n_visits c0.2 : ℚ) : WithBot ℚ)) := by
        simp only [selStep]
        rw [if_pos (WithBot.bot_lt_coe _)]
      rw [TreeNode.select, hch, List.foldl_cons, hstep0] at hpc
      exact hpc
    rcases selStep_fold_first_max env c_puct t.n_visits cs c0 pc hfold with
      ⟨pre, post, hdec, hle, hstrict⟩
    refine ⟨pc, pre, post, hpc, hdec, ?_, hstrict⟩
    intro r hr
    exact hle r hr

/-- Claim C5 witness: on the two-child tree `tC5w` under `envC5w` with
`c_puct = 7/5`, the second child scores `1/3 + 7 = 22/3` against the first
child's `9/4`, and `select` returns it. -/
theorem C5_select_first_max_witness :
    ∃ pc pre post, tC5w.select envC5w (7 / 5) = some pc
      ∧ tC5w.children = pre ++ pc :: post
      ∧ (∀ r ∈ tC5w.children,
          childValue envC5w (7 / 5) tC5w.n_visits r.2 ≤
            childValue envC5w (7 / 5) tC5w.n_visits pc.2)
      ∧ (∀ r ∈ pre,
          childValue envC5w (7 / 5) tC5w.n_visits r.2 <
            childValue envC5w (7 / 5) tC5w.n_visits pc.2) :=
  C5_select_first_max envC5w (7 / 5) tC5w (List.cons_ne_nil _ _)

/-! ### Helper lemmas about `simulate` and the root invariant -/

/-- The sum of the visit counts over a children list. -/
def sumVisits (ch : List (Move × TreeNode Board Move)) : Nat :=
  (ch.map fun p => p.2.n_visits).sum

lemma policy_value_fn_nil (env : MCTSEnv Board Move) (b : Board)
    (h : env.legal_moves b = []) : (policy_value_fn env b).1 = [] := by
  rw [policy_value_fn]
  simp [h]

lemma replaceChild_map_fst [DecidableEq Move] (mv : Move) (c : TreeNode Board Move) :
    ∀ l : List (Move × TreeNode Board Move),
      (replaceChild mv c l).map Prod.fst = l.map Prod.fst := by
  intro l
  induction l with
  | nil => rfl
  | cons x xs ih =>
    by_cases hx : x.1 = mv
    · simp only [replaceChild, if_pos hx, List.map_cons]
    · simp only [replaceChild, if_neg hx, List.map_cons, ih]

lemma replaceChild_ne_nil [DecidableEq Move] (mv : Move) (c : TreeNode Board Move)
    (l : List (Move × TreeNode Board Move)) (h : l ≠ []) :
    replaceChild mv c l ≠ [] := by
  intro hnil
  have := replaceChild_map_fst mv c l
  rw [hnil] at this
  cases l with
  | nil => exact h rfl
  | cons x xs => simp at this

lemma sumVisits_replaceChild [DecidableEq Move] (c : TreeNode Board Move) :
    ∀ (l : List (Move × TreeNode Board Move)) (pc : Move × TreeNode Board Move),
      pc ∈ l → (l.map Prod.fst).Nodup →
      sumVisits (replaceChild pc.1 c l) + pc.2.n_visits = sumVisits l + c.n_visits := by
  intro l
  induction l with
  | nil => intro pc hmem; cases hmem
  | cons x xs ih =>
    intro pc hmem hnod
    by_cases hx : x.1 = pc.1
    · have hpcx : pc = x := by
        rcases List.mem_cons.mp hmem with rfl | hmem2
        · rfl
        · exfalso
          have hk : pc.1 ∈ xs.map Prod.fst := List.mem_map_of_mem Prod.fst hmem2
          rw [← hx] at hk
          exact (List.nodup_cons.mp hnod).1 hk
      subst hpcx
      simp [replaceChild, sumVisits]
      omega
    · have hpc_xs : pc ∈ xs := by
        rcases List.mem_cons.mp hmem with rfl | hmem2
        · exact absurd rfl hx
        · exact hmem2
      have ihx := ih pc hpc_xs (List.nodup_cons.mp hnod).2
      simp only [replaceChild, if_neg hx, sumVisits, List.map_cons, List.sum_cons] at ihx ⊢
      omega

lemma expandFold_append [DecidableEq Move] (env : MCTSEnv Board Move) (b : Board) :
    ∀ (ap : List (Move × ℚ)) (acc : List (Move × TreeNode Board Move)),
      ∃ tail, expandFold env b ap acc = acc ++ tail := by
  intro ap
  induction ap with
  | nil => intro acc; exact ⟨[], by simp [expandFold]⟩
  | cons a as ih =>
    intro acc
    by_cases hc : (∀ x ∈ acc, x.1 ≠ a.1) ∧ 0 < a.2
    · obtain ⟨tail, htail⟩ :=
        ih (acc ++ [(a.1, TreeNode.mk 0 0 a.2 (env.push b a.1) (some a.1) [])])
      refine ⟨[(a.1, TreeNode.mk 0 0 a.2 (env.push b a.1) (some a.1) [])] ++ tail, ?_⟩
      rw [show expandFold env b (a :: as) acc
          = expandFold env b as
            (if (∀ x ∈ acc, x.1 ≠ a.1) ∧ 0 < a.2 then
              acc ++ [(a.1, TreeNode.mk 0 0 a.2 (env.push b a.1) (some a.1) [])]
            else acc) from rfl]
      rw [if_pos hc, htail, List.append_assoc]
    · obtain ⟨tail, htail⟩ := ih acc
      refine ⟨tail, ?_⟩
      rw [show expandFold env b (a :: as) acc
          = expandFold env b as
            (if (∀ x ∈ acc, x.1 ≠ a.1) ∧ 0 < a.2 then
              acc ++ [(a.1, TreeNode.mk 0 0 a.2 (env.push b a.1) (some a.1) [])]
            else acc) from rfl]
      rw [if_neg hc, htail]

lemma expandFold_visits_zero [DecidableEq Move] (env : MCTSEnv Board Move) (b : Board) :
    ∀ (ap : List (Move × ℚ)) (acc : List (Move × TreeNode Board Move)),
      (∀ p ∈ acc, p.2.n_visits = 0) →
      ∀ p ∈ expandFold env b ap acc, p.2.n_visits = 0 := by
  intro ap
  induction ap with
  | nil => intro acc hacc p hp; exact hacc p hp
  | cons a as ih =>
    intro acc hacc p hp
    by_cases hc : (∀ x ∈ acc, x.1 ≠ a.1) ∧ 0 < a.2
    · rw [show expandFold env b (a :: as) acc
          = expandFold env b as
            (if (∀ x ∈ acc, x.1 ≠ a.1) ∧ 0 < a.2 then
              acc ++ [(a.1, TreeNode.mk 0 0 a.2 (env.push b a.1) (some a.1) [])]
            else acc) from rfl, if_pos hc] at hp
      refine ih _ ?_ p hp
      intro r hr
      rcases List.mem_append.mp hr with hr | hr
      · exact hacc r hr
      · rcases List.mem_singleton.mp hr with rfl
        rfl
    · rw [show expandFold env b (a :: as) acc
          = expandFold env b as
            (if (∀ x ∈ acc, x.1 ≠ a.1) ∧ 0 < a.2 then
              acc ++ [(a.1, TreeNode.mk 0 0 a.2 (env.push b a.1) (some a.1) [])]
            else acc) from rfl, if_neg hc] at hp
      exact ih _ hacc p hp

lemma expandFold_keys_nodup [DecidableEq Move] (env : MCTSEnv Board Move) (b : Board) :
    ∀ (ap : List (Move × ℚ)) (acc : List (Move × TreeNode Board Move)),
      (acc.map Prod.fst).Nodup → ((expandFold env b ap acc).map Prod.fst).Nodup := by
  intro ap
  induction ap with
  | nil => intro acc h; exact h
  | cons a as ih =>
    intro acc h
    by_cases hc : (∀ x ∈ acc, x.1 ≠ a.1) ∧ 0 < a.2
    · rw [show expandFold env b (a :: as) acc
          = expandFold env b as
            (if (∀ x ∈ acc, x.1 ≠ a.1) ∧ 0 < a.2 then
              acc ++ [(a.1, TreeNode.mk 0 0 a.2 (env.push b a.1) (some a.1) [])]
            else acc) from rfl, if_pos hc]
      apply ih
      rw [List.map_append]
      rw [List.nodup_append]
      refine ⟨h, List.nodup_singleton _, ?_⟩
      intro k hk hk2
      rcases List.mem_singleton.mp (by simpa using hk2) with rfl
      rcases List.mem_map.mp hk with ⟨r, hr, hre⟩
      exact hc.1 r hr hre
    · rw [show expandFold env b (a :: as) acc
          = expandFold env b as
            (if (∀ x ∈ acc, x.1 ≠ a.1) ∧ 0 < a.2 then
              acc ++ [(a.1, TreeNode.mk 0 0 a.2 (env.push b a.1) (some a.1) [])]
            else acc) from rfl, if_neg hc]
      exact ih acc h

lemma simulate_n_visits [DecidableEq Move] (env : MCTSEnv Board Move) (c_puct : ℚ)
    (t : TreeNode Board Move) :
    ((simulate env c_puct t).1).n_visits = t.n_visits + 1 := by
  obtain ⟨n, q, p, b, mv0, ch⟩ := t
  cases ch with
  | nil =>
    simp only [simulate]
    by_cases hgo : env.is_game_over b = false
    · rw [if_pos hgo]
      rw [expand_eq_expandFold]
      rfl
    · rw [if_neg hgo]
      rfl
  | cons c0 cs =>
    simp only [simulate]
    split
    · rfl
    · rename_i heq
      obtain ⟨pc, hpc⟩ := TreeNode.select_isSome env c_puct
        (TreeNode.mk n q p b mv0 (c0 :: cs)) (by simp [TreeNode.children])
      rw [hpc] at heq
      cases heq

/-- The facts the conservation argument tracks at the root: its visit
count, its board, that the children carry pairwise distinct move keys,
that an empty children map only arises for a board without legal moves,
and that the children's visit counts sum to the root's count. -/
def RootInv (env : MCTSEnv Board Move) (b : Board) (k : Nat)
    (t : TreeNode Board Move) : Prop :=
  t.n_visits = k ∧ t.board = b
  ∧ (t.children.map Prod.fst).Nodup
  ∧ (t.children = [] → env.legal_moves b = [])
  ∧ (t.children ≠ [] → sumVisits t.children = k)

lemma expandFold_cons_pos_ne_nil [DecidableEq Move] (env : MCTSEnv Board Move)
    (b : Board) (a : Move × ℚ) (as : List (Move × ℚ)) (hpos : 0 < a.2) :
    expandFold env b (a :: as) [] ≠ [] := by
  rw [show expandFold env b (a :: as) []
      = expandFold env b as
        (if (∀ x ∈ ([] : List (Move × TreeNode Board Move)), x.1 ≠ a.1) ∧ 0 < a.2 then
          [(a.1, TreeNode.mk 0 0 a.2 (env.push b a.1) (some a.1) [])]
        else []) from rfl]
  rw [if_pos ⟨fun x hx => absurd hx (List.not_mem_nil x), hpos⟩]
  obtain ⟨tail, htail⟩ := expandFold_append env b as
    [(a.1, TreeNode.mk 0 0 a.2 (env.push b a.1) (some a.1) [])]
  rw [htail]
  simp

lemma set_root_node_rootInv [DecidableEq Move] (env : MCTSEnv Board Move) (b : Board) :
    RootInv env b 0 (set_root_node env b) := by
  rw [set_root_node, expand_eq_expandFold]
  refine ⟨rfl, rfl, ?_, ?_, ?_⟩
  · exact expandFold_keys_nodup env b _ [] (by simp)
  · intro hnil
    by_contra hlegal
    have heq := policy_value_fn_eq env b hlegal
    have hnil2 : expandFold env b (policy_value_fn env b).1 [] = [] := hnil
    have hraw := rawTotal_pos env b hlegal
    cases hl : env.legal_moves b with
    | nil => exact hlegal hl
    | cons m ms =>
      rw [heq] at hnil2
      rw [hl] at hnil2 hraw
      simp only [List.map_cons] at hnil2 hraw
      refine expandFold_cons_pos_ne_nil env b _ _ ?_ hnil2
      exact div_pos (policyProbRaw_pos env b m) hraw
  · intro _
    apply List.sum_eq_zero
    intro v hv
    rcases List.mem_map.mp hv with ⟨r, hr, rfl⟩
    exact expandFold_visits_zero env b _ [] (by intro s hs; cases hs) r hr

lemma simulate_rootInv [DecidableEq Move] (env : MCTSEnv Board Move) (c_puct : ℚ)
    (b : Board) (k : Nat) (t : TreeNode Board Move) (hinv : RootInv env b k t) :
    RootInv env b (k + 1) (simulate env c_puct t).1 := by
  obtain ⟨n, q, p, b0, mv0, ch⟩ := t
  obtain ⟨hn, hb, hnod, hempty, hsum⟩ := hinv
  simp only [TreeNode.n_visits, TreeNode.board, TreeNode.children] at hn hb hnod hempty hsum
  have hb2 := hb.symm
  subst hb2
  subst hn
  cases ch with
  | nil =>
    have hlegal : env.legal_moves b = [] := hempty rfl
    have hpv : (policy_value_fn env b).1 = [] := policy_value_fn_nil env b hlegal
    simp only [simulate]
    by_cases hgo : env.is_game_over b = false
    · rw [if_pos hgo]
      refine ⟨rfl, rfl, ?_, fun _ => hlegal, ?_⟩
      · show (List.map Prod.fst (expandFold env b (policy_value_fn env b).1 [])).Nodup
        rw [hpv]
        exact List.nodup_nil
      · intro hne
        have hch : expandFold env b (policy_value_fn env b).1 [] = [] := by
          rw [hpv]
          rfl
        exact absurd hch hne
    · rw [if_neg hgo]
      refine ⟨rfl, rfl, List.nodup_nil, fun _ => hlegal, fun hne => absurd rfl hne⟩
  | cons c0 cs =>
    have hsum2 : sumVisits (c0 :: cs) = n := hsum (by simp)
    simp only [simulate]
    split
    · rename_i pc heq
      have hmem : pc ∈ c0 :: cs := by
        have := TreeNode.select_mem env c_puct _ pc heq
        simpa [TreeNode.children] using this
      have hrepl := sumVisits_replaceChild
        ((simulate env c_puct pc.2).1) (c0 :: cs) pc hmem hnod
      have hvis := simulate_n_visits env c_puct pc.2
      refine ⟨rfl, rfl, ?_, ?_, ?_⟩
      · show (List.map Prod.fst (replaceChild pc.1 (simulate env c_puct pc.2).1 (c0 :: cs))).Nodup
        rw [replaceChild_map_fst]
        exact hnod
      · intro hnil
        have hnil2 : replaceChild pc.1 (simulate env c_puct pc.2).1 (c0 :: cs) = [] := hnil
        exact absurd hnil2
          (replaceChild_ne_nil pc.1 (simulate env c_puct pc.2).1 (c0 :: cs) (by simp))
      · intro _
        show sumVisits (replaceChild pc.1 (simulate env c_puct pc.2).1 (c0 :: cs)) = n + 1
        omega
    · rename_i heq
      obtain ⟨pc, hpc⟩ := TreeNode.select_isSome env c_puct
        (TreeNode.mk n q p b mv0 (c0 :: cs)) (by simp [TreeNode.children])
      rw [hpc] at heq
      cases heq

lemma runSims_rootInv [DecidableEq Move] (env : MCTSEnv Board Move) (c_puct : ℚ)
    (b : Board) :
    ∀ (N k : Nat) (t : TreeNode Board Move), RootInv env b k t →
      RootInv env b (k + N) (runSims env c_puct N t) := by
  intro N
  induction N with
  | zero => intro k t h; exact h
  | succ n ih =>
    intro k t h
    rw [runSims]
    have := ih (k + 1) (simulate env c_puct t).1 (simulate_rootInv env c_puct b k t h)
    rw [show k + 1 + n = k + (n + 1) by omega] at this
    exact this

/-! ### C2 — visit conservation after N simulations from a fresh root -/

/-- Claim C2: after `set_root_node` on a board and a `get_move_probs` call
running exactly N simulations, the root's visit count is N, and when the
root has children the children's visit counts sum to N: each simulation
increments the root once and descends into exactly one root child. -/
theorem C2_visit_conservation [DecidableEq Move] (env : MCTSEnv Board Move) (b : Board)
    (c_puct : ℚ) (N : Nat) (temperature : ℝ) :
    ((get_move_probs env c_puct N temperature (set_root_node env b)).1).n_visits = N
  ∧ (((get_move_probs env c_puct N temperature (set_root_node env b)).1).children ≠ [] →
      sumVisits ((get_move_probs env c_puct N temperature (set_root_node env b)).1).children
        = N) := by
  have hfst : (get_move_probs env c_puct N temperature (set_root_node env b)).1
      = runSims env c_puct N (set_root_node env b) := by
    rw [get_move_probs]
    by_cases hie : (runSims env c_puct N (set_root_node env b)).children.isEmpty
    · simp only [hie, if_true]
    · simp only [hie, Bool.false_eq_true, if_false]
  have hinv := runSims_rootInv env c_puct b N 0 (set_root_node env b)
    (set_root_node_rootInv env b)
  rw [hfst]
  rw [show 0 + N = N by omega] at hinv
  exact ⟨hinv.1, hinv.2.2.2.2⟩

/-! ### C7 — the high-temperature move distribution -/

lemma list_sum_map_mul_const (l : List ℕ) (f : ℕ → ℝ) (c : ℝ) :
    (l.map fun v => f v * c).sum = (l.map f).sum * c := by
  induction l with
  | nil => simp
  | cons x xs ih =>
    simp only [List.map_cons, List.sum_cons, ih]
    ring

lemma visitsDist_softmax (T : ℝ) (hT : 1 / 1000 < T) (vs : List Nat) :
    visitsDist T vs = vs.map fun v : ℕ =>
      Real.exp ((v : ℝ) / T) / (vs.map fun w : ℕ => Real.exp ((w : ℝ) / T)).sum := by
  rw [visitsDist, if_neg (not_le.mpr hT)]
  show (vs.map fun v : ℕ =>
        Real.exp (((v : ℝ) - ((vs.foldl max 0 : ℕ) : ℝ)) / T)).map
      (fun e => e /
        ((vs.map fun v : ℕ =>
          Real.exp (((v : ℝ) - ((vs.foldl max 0 : ℕ) : ℝ)) / T)).sum))
    = _
  have hexp : ∀ v : ℕ, Real.exp (((v : ℝ) - ((vs.foldl max 0 : ℕ) : ℝ)) / T)
      = Real.exp ((v : ℝ) / T) * Real.exp (-(((vs.foldl max 0 : ℕ) : ℝ) / T)) := by
    intro v
    rw [← Real.exp_add]
    congr 1
    ring
  have h1 : (vs.map fun v : ℕ => Real.exp (((v : ℝ) - ((vs.foldl max 0 : ℕ) : ℝ)) / T))
      = vs.map fun v : ℕ =>
          Real.exp ((v : ℝ) / T) * Real.exp (-(((vs.foldl max 0 : ℕ) : ℝ) / T)) :=
    List.map_congr_left fun v _ => hexp v
  rw [h1]
  have hsum : (vs.map fun v : ℕ =>
        Real.exp ((v : ℝ) / T) * Real.exp (-(((vs.foldl max 0 : ℕ) : ℝ) / T))).sum
      = (vs.map fun v : ℕ => Real.exp ((v : ℝ) / T)).sum
          * Real.exp (-(((vs.foldl max 0 : ℕ) : ℝ) / T)) :=
    list_sum_map_mul_const vs (fun v : ℕ => Real.exp ((v : ℝ) / T))
      (Real.exp (-(((vs.foldl max 0 : ℕ) : ℝ) / T)))
  rw [List.map_map, hsum]
  apply List.map_congr_left
  intro v _
  show Real.exp ((v : ℝ) / T) * Real.exp (-(((vs.foldl max 0 : ℕ) : ℝ) / T))
      / ((vs.map fun v : ℕ => Real.exp ((v : ℝ) / T)).sum
          * Real.exp (-(((vs.foldl max 0 : ℕ) : ℝ) / T)))
    = Real.exp ((v : ℝ) / T) / (vs.map fun w : ℕ => Real.exp ((w : ℝ) / T)).sum
  rw [mul_div_mul_right _ _ (Real.exp_ne_zero _)]

/-- Claim C7 as amended: with temperature strictly above the 1e-3 threshold
and a root with children, the returned distribution pairs the root's
children with `exp(visits / temperature)` renormalised — a Boltzmann
weighting of the raw visit counts (the subtraction of the maximum visit
count cancels), not visit counts raised to the power 1/temperature. -/
theorem C7_softmax_of_temperature [DecidableEq Move] (env : MCTSEnv Board Move)
    (c_puct : ℚ) (N : Nat) (T : ℝ) (root : TreeNode Board Move)
    (hT : 1 / 1000 < T)
    (hch : (runSims env c_puct N root).children ≠ []) :
    (get_move_probs env c_puct N T root).2 =
      (runSims env c_puct N root).children.map fun pr =>
        (pr.1, Real.exp ((pr.2.n_visits : ℝ) / T) /
          (((runSims env c_puct N root).children.map fun r =>
            Real.exp ((r.2.n_visits : ℝ) / T)).sum)) := by
  have hie : (runSims env c_puct N root).children.isEmpty = false := by
    cases h : (runSims env c_puct N root).children with
    | nil => exact absurd h hch
    | cons a l => rfl
  rw [get_move_probs]
  simp only [hie, Bool.false_eq_true, if_false]
  rw [visitsDist_softmax T hT]
  rw [List.map_map]
  rw [List.zip_map']
  apply List.map_congr_left
  intro pr _
  rw [List.map_map]
  rfl

/-- Claim C7 witness: with temperature 1 on a root whose children carry 1
and 2 visits, the amended theorem applies and yields the Boltzmann weights
of the visit counts. -/
theorem C7_softmax_witness :
    (get_move_probs envC7 (7 / 5) 0 1 rootC7).2 =
      (runSims envC7 (7 / 5) 0 rootC7).children.map fun pr =>
        (pr.1, Real.exp ((pr.2.n_visits : ℝ) / 1) /
          (((runSims envC7 (7 / 5) 0 rootC7).children.map fun r =>
            Real.exp ((r.2.n_visits : ℝ) / 1)).sum)) :=
  C7_softmax_of_temperature envC7 (7 / 5) 0 1 rootC7 (by norm_num) (List.cons_ne_nil _ _)

/-- Claim C7 counterexample: on a root with visit counts 1 and 2 at
temperature 1, the claim's visit-count exponentiation with exponent
1/temperature predicts the distribution [1/3, 2/3], but the returned
distribution gives the second child `1 / (exp (-1) + 1)`, which would force
`exp 1 = 2`, contradicting `2.718… < exp 1`. -/
theorem C7_power_law_counterexample :
    (get_move_probs envC7 (7 / 5) 0 1 rootC7).2 ≠
      [(false, 1 / 3), (true, 2 / 3)] := by
  intro h
  have hlhs := C7_softmax_of_temperature envC7 (7 / 5) 0 1 rootC7 (by norm_num)
    (List.cons_ne_nil _ _)
  rw [h] at hlhs
  have h2 : ((2 : ℝ) / 3) = Real.exp 2 / (Real.exp 1 + (Real.exp 2 + 0)) := by
    have := congrArg (fun l => l.getLast? ) hlhs
    simpa [rootC7, runSims, TreeNode.children, TreeNode.n_visits] using this
  have hpos : 0 < Real.exp 1 + (Real.exp 2 + 0) := by positivity
  have h3 := h2.symm
  rw [div_eq_iff (ne_of_gt hpos)] at h3
  have hexp2 : Real.exp 2 = Real.exp 1 * Real.exp 1 := by
    rw [← Real.exp_add]
    norm_num
  have he := Real.exp_one_gt_d9
  nlinarith [he, Real.exp_pos 1, h3]

/-! ### C4 — the move index mapping -/

lemma mem_movesForPair (f t : Nat) (m : ChessMove) (h : m ∈ movesForPair f t) :
    m.fromSq = f ∧ m.toSq = t := by
  rw [movesForPair] at h
  by_cases hft : f ≠ t
  · rw [if_pos hft] at h
    rcases List.mem_cons.mp h with rfl | h
    · exact ⟨rfl, rfl⟩
    · by_cases hrank : t / 8 = 0 ∨ t / 8 = 7
      · rw [if_pos hrank] at h
        rcases List.mem_map.mp h with ⟨p, _, rfl⟩
        exact ⟨rfl, rfl⟩
      · rw [if_neg hrank] at h
        cases h
  · rw [if_neg hft] at h
    cases h

lemma movesForPair_nodup (f t : Nat) : (movesForPair f t).Nodup := by
  rw [movesForPair]
  by_cases hft : f ≠ t
  · rw [if_pos hft]
    rw [List.nodup_cons]
    constructor
    · intro hmem
      by_cases hrank : t / 8 = 0 ∨ t / 8 = 7
      · rw [if_pos hrank] at hmem
        rcases List.mem_map.mp hmem with ⟨p, _, hp⟩
        cases hp
      · rw [if_neg hrank] at hmem
        cases hmem
    · by_cases hrank : t / 8 = 0 ∨ t / 8 = 7
      · rw [if_pos hrank]
        refine List.Nodup.map ?_ (by decide)
        intro p1 p2 hp
        injection hp with h1 h2 h3
        exact Option.some.inj h3
      · rw [if_neg hrank]
        exact List.nodup_nil
  · rw [if_neg hft]
    exact List.nodup_nil

lemma mem_inner (f : Nat) (m : ChessMove)
    (h : m ∈ (List.range 64).flatMap fun t => movesForPair f t) :
    m.fromSq = f := by
  rcases List.mem_flatMap.mp h with ⟨t, _, hmt⟩
  exact (mem_movesForPair f t m hmt).1

lemma inner_nodup (f : Nat) : ((List.range 64).flatMap fun t => movesForPair f t).Nodup := by
  rw [List.nodup_flatMap]
  constructor
  · intro t _
    exact movesForPair_nodup f t
  · refine List.Pairwise.imp ?_ (List.pairwise_lt_range 64)
    intro t1 t2 hlt m hm1 hm2
    have h1 := (mem_movesForPair f t1 m hm1).2
    have h2 := (mem_movesForPair f t2 m hm2).2
    omega

lemma MOVE_LIST_nodup : MOVE_LIST.Nodup := by
  rw [MOVE_LIST, List.nodup_flatMap]
  constructor
  · intro f _
    exact inner_nodup f
  · refine List.Pairwise.imp ?_ (List.pairwise_lt_range 64)
    intro f1 f2 hlt m hm1 hm2
    have h1 := mem_inner f1 m hm1
    have h2 := mem_inner f2 m hm2
    omega

lemma lookup_mem {α β : Type} [DecidableEq α] :
    ∀ (al : List (α × β)) (a : α) (b : β), al.lookup a = some b → (a, b) ∈ al := by
  intro al
  induction al with
  | nil => intro a b h; cases h
  | cons x xs ih =>
    obtain ⟨k, v⟩ := x
    intro a b h
    by_cases hak : a = k
    · subst hak
      simp only [List.lookup, beq_self_eq_true] at h
      have hvb := Option.some.inj h
      subst hvb
      exact List.mem_cons_self _ _
    · have hbeq : (a == k) = false := beq_eq_false_iff_ne.mpr hak
      simp [List.lookup, hbeq] at h
      exact List.mem_cons_of_mem _ (ih a b h)

lemma mem_lookup {α β : Type} [DecidableEq α] :
    ∀ (al : List (α × β)) (a : α) (b : β), (al.map Prod.fst).Nodup → (a, b) ∈ al →
      al.lookup a = some b := by
  intro al
  induction al with
  | nil => intro a b _ hmem; cases hmem
  | cons x xs ih =>
    obtain ⟨k, v⟩ := x
    intro a b hnod hmem
    by_cases hak : a = k
    · subst hak
      rcases List.mem_cons.mp hmem with heq | hmem2
      · injection heq with h1 h2
        subst h2
        simp only [List.lookup, beq_self_eq_true]
      · exfalso
        have : a ∈ xs.map Prod.fst := by
          have := List.mem_map_of_mem Prod.fst hmem2
          simpa using this
        exact (List.nodup_cons.mp (by simpa using hnod)).1 this
    · have hbeq : (a == k) = false := beq_eq_false_iff_ne.mpr hak
      rcases List.mem_cons.mp hmem with heq | hmem2
      · exfalso
        injection heq with h1 h2
        exact hak h1
      · simp only [List.lookup, hbeq]
        exact ih a b (List.nodup_cons.mp (by simpa using hnod)).2 hmem2

set_option maxRecDepth 4000 in
/-- The reversed (move, index) association list `get_index_by_move` reads. -/
lemma mem_index_pairs (mv : ChessMove) (i : Nat) :
    (mv, i) ∈ (MOVE_LIST.enum.map fun p => (p.2, p.1)).reverse ↔
      MOVE_LIST[i]? = some mv := by
  rw [List.mem_reverse]
  constructor
  · intro h
    rcases List.mem_map.mp h with ⟨p, hp, heq⟩
    obtain ⟨pi, pm⟩ := p
    simp only [Prod.mk.injEq] at heq
    obtain ⟨h1, h2⟩ := heq
    subst h1
    subst h2
    have h3 := List.mem_enum_iff_getElem?.mp hp
    simp only at h3
    exact h3
  · intro h
    refine List.mem_map.mpr ⟨(i, mv), ?_, rfl⟩
    apply List.mem_enum_iff_getElem?.mpr
    simpa using h

lemma index_pairs_keys_nodup :
    (((MOVE_LIST.enum.map fun p => (p.2, p.1)).reverse).map Prod.fst).Nodup := by
  rw [List.map_reverse, List.map_map]
  rw [show (Prod.fst ∘ fun p : Nat × ChessMove => (p.2, p.1)) = Prod.snd from rfl]
  rw [List.enum_map_snd, List.nodup_reverse]
  exact MOVE_LIST_nodup

lemma move_roundtrip (i : Nat) (m : ChessMove) (h : get_move_by_index i = some m) :
    get_index_by_move m = some i := by
  rw [get_move_by_index] at h
  rw [get_index_by_move]
  exact mem_lookup _ m i index_pairs_keys_nodup ((mem_index_pairs m i).mpr h)

lemma plain_move_mem (f t : Nat) (hf : f < 64) (ht : t < 64) (hne : f ≠ t) :
    (⟨f, t, none⟩ : ChessMove) ∈ MOVE_LIST := by
  rw [MOVE_LIST]
  refine List.mem_flatMap.mpr ⟨f, List.mem_range.mpr hf, ?_⟩
  refine List.mem_flatMap.mpr ⟨t, List.mem_range.mpr ht, ?_⟩
  rw [movesForPair, if_pos hne]
  exact List.mem_cons_self _ _

lemma promo_move_mem (f t : Nat) (hf : f < 64) (ht : t < 64) (hne : f ≠ t)
    (hrank : t / 8 = 0 ∨ t / 8 = 7) (p : Nat) (hp : p ∈ promotionPieces) :
    (⟨f, t, some p⟩ : ChessMove) ∈ MOVE_LIST := by
  rw [MOVE_LIST]
  refine List.mem_flatMap.mpr ⟨f, List.mem_range.mpr hf, ?_⟩
  refine List.mem_flatMap.mpr ⟨t, List.mem_range.mpr ht, ?_⟩
  rw [movesForPair, if_pos hne, if_pos hrank]
  exact List.mem_cons_of_mem _ (List.mem_map.mpr ⟨p, hp, rfl⟩)

lemma mem_has_index (m : ChessMove) (h : m ∈ MOVE_LIST) :
    ∃ i, get_index_by_move m = some i := by
  rcases List.mem_iff_getElem.mp h with ⟨i, hlen, hget⟩
  refine ⟨i, move_roundtrip i m ?_⟩
  rw [get_move_by_index, List.getElem?_eq_getElem hlen, hget]

/-- Claim C4: the move-index mapping is injective (no two distinct moves
share an index), round-trips (`get_index_by_move (get_move_by_index i) = i`
for every index in the table), and is total over the declared action space —
one plain move for every ordered pair of distinct squares and one variant
per promotable piece kind (knight, bishop, rook, queen) for every such pair
whose destination lies on a promotion rank — so every legal chess move has
an index. -/
theorem C4_move_mapping :
    (∀ m1 m2 i, get_index_by_move m1 = some i → get_index_by_move m2 = some i → m1 = m2)
  ∧ (∀ i m, get_move_by_index i = some m → get_index_by_move m = some i)
  ∧ (∀ f t, f < 64 → t < 64 → f ≠ t →
      (∃ i, get_index_by_move ⟨f, t, none⟩ = some i)
    ∧ ((t / 8 = 0 ∨ t / 8 = 7) → ∀ p ∈ promotionPieces,
        ∃ i, get_index_by_move ⟨f, t, some p⟩ = some i)) := by
  refine ⟨?_, ?_, ?_⟩
  · intro m1 m2 i h1 h2
    rw [get_index_by_move] at h1 h2
    have hm1 := (mem_index_pairs m1 i).mp (lookup_mem _ m1 i h1)
    have hm2 := (mem_index_pairs m2 i).mp (lookup_mem _ m2 i h2)
    rw [hm1] at hm2
    exact Option.some.inj hm2
  · exact move_roundtrip
  · intro f t hf ht hne
    constructor
    · exact mem_has_index _ (plain_move_mem f t hf ht hne)
    · intro hrank p hp
      exact mem_has_index _ (promo_move_mem f t hf ht hne hrank p hp)

end HCA
